import Mathlib

/-!
The go-local-s3 server: the object listing, the key codec and the delete handlers

A shallow embedding of `main.go`.  Go strings are sequences of characters
(`Str`); the separator `/`, the escape token `%2f` and the regular-expression
metacharacters are ASCII, so replacing and matching on characters agrees with
Go's byte-wise operations on UTF-8 text.  The file system is an explicit
value `FS` that the handlers read and return; the HTTP plumbing (routing,
content negotiation, logging) is left out and every handler returns the value
it hands to `addResponse`.
-/

namespace LocalS3

/-- A Go string. -/
abbrev Str := List Char

/-! ## The parts of the Go standard library the handlers call -/

/-- The loop of `strings.Replace` for a non-empty `old`: scan from the left, replace an
occurrence of `old` at the current position while replacements remain (`n ≠ 0`), then
continue behind it (`skip` counts the characters of the occurrence still to be passed). -/
def replaceFrom (old new : Str) : Str → Nat → Int → Str
  | [], _, _ => []
  | _ :: s, skip + 1, n => replaceFrom old new s skip n
  | c :: s, 0, n =>
    if n ≠ 0 ∧ old <+: (c :: s) then new ++ replaceFrom old new s (old.length - 1) (n - 1)
    else c :: replaceFrom old new s 0 n

/-- The loop of `strings.Replace` for an empty `old`, which matches before every character
and at the end of the string. -/
def replaceEmpty (new : Str) : Str → Int → Str
  | [], n => if n = 0 then [] else new
  | c :: s, n => if n = 0 then c :: s else new ++ c :: replaceEmpty new s (n - 1)

/-- Go `strings.Replace(s, old, new, n)`: the first `n` non-overlapping occurrences of `old`
replaced by `new`; no limit when `n < 0`. -/
def stringsReplace (s old new : Str) (n : Int) : Str :=
  if old = new ∨ n = 0 then s
  else if old = [] then replaceEmpty new s n
  else replaceFrom old new s 0 n

/-- Go `strings.ReplaceAll(s, old, new)`, which is `strings.Replace(s, old, new, -1)`. -/
def stringsReplaceAll (s old new : Str) : Str := stringsReplace s old new (-1)

/-- Go `strings.HasPrefix(s, p)`. -/
def stringsHasPrefix (s p : Str) : Bool := p.isPrefixOf s

/-- Go `strings.Split(s, sep)` for a separator of one character `c`. -/
def splitOnChar (c : Char) : Str → List Str
  | [] => [[]]
  | x :: s =>
    if x = c then [] :: splitOnChar c s
    else
      match splitOnChar c s with
      | [] => [[x]]
      | h :: t => (x :: h) :: t

/-- Go `strconv.FormatInt(i, 10)`. -/
def strconvFormatInt (i : Int) : Str :=
  if i < 0 then '-' :: Nat.toDigits 10 i.natAbs else Nat.toDigits 10 i.natAbs

/-! ### Paths and the file system -/

/-- A cleaned rooted path: its components below the root directory. -/
abbrev Path := List Str

/-- One step of `filepath.Clean` on a stack of components (innermost first): empty and `.`
components vanish, `..` removes the component before it (and vanishes at the root). -/
def cleanStep (stack : List Str) (c : Str) : List Str :=
  if c = [] ∨ c = ['.'] then stack
  else if c = ['.', '.'] then stack.tail
  else c :: stack

/-- Go `filepath.Join(base, elems...)` for a cleaned rooted `base`: the elements are joined
with `/` and the whole path is cleaned. -/
def filepathJoin (base : Path) (elems : List Str) : Path :=
  ((elems.flatMap (splitOnChar '/')).foldl cleanStep base.reverse).reverse

/-- An entry of the file system: a file or a directory at a path. -/
structure Node where
  path : Path
  isDir : Bool
  size : Int
  modTime : Int
deriving DecidableEq, Repr

/-- The file system: its entries, in any order. -/
abbrev FS := List Node

/-- What the handlers read of an `os.FileInfo`; `ModTime` is the time in Unix nanoseconds. -/
structure FileInfo where
  Name : Str
  Size : Int
  ModTime : Int
deriving DecidableEq, Repr

/-- Go `os.Stat(p)`: the entry at `p`, `none` (an error) when there is none. -/
def osStat (fs : FS) (p : Path) : Option Node := fs.find? (fun n => n.path = p)

/-- The order of Go strings, `a <= b`. -/
def strLe : Str → Str → Bool
  | [], _ => true
  | _ :: _, [] => false
  | a :: s, b :: t => decide (a.toNat < b.toNat) || (a == b && strLe s t)

/-- The `os.FileInfo` of an entry when it lies directly in the directory `p`. -/
def childOf (p : Path) (n : Node) : Option FileInfo :=
  match n.path.reverse with
  | [] => none
  | name :: parent => if parent.reverse = p then some ⟨name, n.size, n.modTime⟩ else none

/-- Go `ioutil.ReadDir(p)`: the entries directly in `p`, sorted by file name; empty (the
error is dropped by every caller) when `p` is no directory. -/
def ioutilReadDir (fs : FS) (p : Path) : List FileInfo :=
  (fs.filterMap (childOf p)).insertionSort (fun a b => strLe a.Name b.Name = true)

/-- Something lies below the path. -/
def hasEntriesBelow (fs : FS) (p : Path) : Bool :=
  fs.any (fun n => p.isPrefixOf n.path && n.path != p)

/-- Go `os.Remove(p)`: removes a file or an empty directory; a directory with entries in it
stays (the error is dropped by the caller). -/
def osRemove (fs : FS) (p : Path) : FS :=
  if hasEntriesBelow fs p then fs else fs.filter (fun n => n.path != p)

/-- Go `os.RemoveAll(p)`: removes `p` and everything below it; nothing when `p` is absent. -/
def osRemoveAll (fs : FS) (p : Path) : FS := fs.filter (fun n => !p.isPrefixOf n.path)

/-! ### Regular expressions

`regexp.Compile` is modelled on the fragment `getRegexpForList` produces when the
request strings hold no metacharacter other than `.`, `(` and `)`: literal characters,
`.`, the greedy `.*` and capture groups that are not nested.  A pattern outside the
fragment is `unmodelled` and nothing is said about it. -/

/-- An instruction of a compiled pattern. -/
inductive Inst
  | char (c : Char)
  | any
  | anyStar
  | save (slot : Nat)
deriving DecidableEq, Repr

/-- The `*regexp.Regexp` kept by `getRegexpForList`: a compiled program, the nil pointer, or a
pattern outside the modelled fragment. -/
inductive Regexp
  | compiled (prog : List Inst)
  | nil
  | unmodelled
deriving DecidableEq, Repr

/-- The metacharacters of the pattern syntax. -/
def isMeta (c : Char) : Bool :=
  c ∈ ['\\', '.', '+', '*', '?', '(', ')', '|', '[', ']', '{', '}', '^', '$']

/-- Put an instruction in front of a compiled program. -/
def Regexp.cons (i : Inst) : Regexp → Regexp
  | .compiled prog => .compiled (i :: prog)
  | .nil => .nil
  | .unmodelled => .unmodelled

/-- The parser, left to right: `inGroup` is the number of the capture group that is open,
`next` the number of the next group.  Group `g` records its start in slot `2 * g` and its end
in slot `2 * g + 1`.  A closing parenthesis without an opening one and a group left open are
syntax errors (`nil`). -/
def regexpParse : Str → Option Nat → Nat → Regexp
  | [], inGroup, _ => if inGroup.isSome then .nil else .compiled []
  | c :: s, inGroup, next =>
    if c = '(' then
      match inGroup with
      | none => (regexpParse s (some next) (next + 1)).cons (.save (2 * next))
      | some _ => .unmodelled
    else if c = ')' then
      match inGroup with
      | some g => (regexpParse s none next).cons (.save (2 * g + 1))
      | none => .nil
    else if c = '.' then
      match s with
      | [] => (regexpParse [] inGroup next).cons .any
      | d :: t =>
        if d = '*' then (regexpParse t inGroup next).cons .anyStar
        else (regexpParse (d :: t) inGroup next).cons .any
    else if isMeta c then .unmodelled
    else (regexpParse s inGroup next).cons (.char c)

/-- Go `re, _ := regexp.Compile(pattern)`: `re` is nil when the pattern has a syntax error. -/
def regexpCompile (pattern : Str) : Regexp := regexpParse pattern none 1

/-- The capture slots set so far, latest first, as (slot, position). -/
abbrev Caps := List (Nat × Nat)

/-- The greedy loop of `.*`: take one more character (never a line feed) first, and only
when the rest of the program fails behind it, go on with the rest of the program here. -/
def starLoop (k : Str → Nat → Option Caps) : Str → Nat → Option Caps
  | [], pos => k [] pos
  | c :: s, pos =>
    if c = '\n' then k (c :: s) pos
    else
      match starLoop k s (pos + 1) with
      | some caps => some caps
      | none => k (c :: s) pos

/-- The backtracking matcher: run the program on the input at position `pos`; the first
match found is the one the leftmost-first rule of package `regexp` yields.  The end of the
match goes to slot 1. -/
def matchHere : List Inst → Str → Nat → Caps → Option Caps
  | [], _, pos, caps => some ((1, pos) :: caps)
  | .char c :: prog, s, pos, caps =>
    match s with
    | [] => none
    | x :: s => if x = c then matchHere prog s (pos + 1) caps else none
  | .any :: prog, s, pos, caps =>
    match s with
    | [] => none
    | x :: s => if x = '\n' then none else matchHere prog s (pos + 1) caps
  | .anyStar :: prog, s, pos, caps => starLoop (fun s1 pos1 => matchHere prog s1 pos1 caps) s pos
  | .save slot :: prog, s, pos, caps => matchHere prog s pos ((slot, pos) :: caps)

/-- The leftmost match: try every start position from the left. -/
def searchFrom (prog : List Inst) : Str → Nat → Option Caps
  | [], pos => matchHere prog [] pos [(0, pos)]
  | c :: s, pos =>
    match matchHere prog (c :: s) pos [(0, pos)] with
    | some caps => some caps
    | none => searchFrom prog s (pos + 1)

/-- The position a slot holds. -/
def slotOf (caps : Caps) (slot : Nat) : Option Nat := (caps.find? (fun e => e.1 = slot)).map Prod.snd

/-- The text of group `g` (group 0 is the whole match); empty when the group took no part. -/
def groupText (s : Str) (caps : Caps) (g : Nat) : Str :=
  match slotOf caps (2 * g), slotOf caps (2 * g + 1) with
  | some i, some j => (s.drop i).take (j - i)
  | _, _ => []

/-- The number of capture groups of a program. -/
def numSubexp (prog : List Inst) : Nat :=
  (prog.filter (fun i => match i with | .save slot => slot % 2 == 0 | _ => false)).length

/-- Go `re.FindStringSubmatch(s)` for a compiled `re`: `none` (nil) without a match, else the
text of the leftmost match followed by the text of every group. -/
def findStringSubmatch (prog : List Inst) (s : Str) : Option (List Str) :=
  match searchFrom prog s 0 with
  | none => none
  | some caps => some ((List.range (numSubexp prog + 1)).map (groupText s caps))

/-! ### Maps -/

/-- A Go `map[string]bool`: its entries, every key once. -/
abbrev GoMap := List (Str × Bool)

/-- Go `m[k] = v`: the entry of `k` is overwritten, a new key gets a new entry. -/
def mapSet (m : GoMap) (k : Str) (v : Bool) : GoMap :=
  if m.any (fun e => e.1 = k) then m.map (fun e => if e.1 = k then (k, v) else e)
  else m ++ [(k, v)]

/-! ## The program -/

/-- Constant `separator`. -/
def separator : Str := ['/']

/-- Constant `escapedSeparator`. -/
def escapedSeparator : Str := ['%', '2', 'f']

/-- Constant `subdomainSeparator`. -/
def subdomainSeparator : Char := '.'

/-- Constant `s3.ErrCodeNoSuchBucket`. -/
def ErrCodeNoSuchBucket : Str := "NoSuchBucket".toList

/-- What the handlers read of the `*http.Request`: the host, the form values of the listing
(`MaxKeys` is `strconv.Atoi` of `max-keys`, 0 when it does not parse) and the route variable
`Key`. -/
structure Request where
  Host : Str
  Marker : Str
  Prefix : Str
  MaxKeys : Int
  Delimiter : Str
  Key : Str
deriving DecidableEq, Repr

/-- The outcome of a handler: the value written with `addResponse`, the error written with
`handleError`, a run-time panic, or a run that left the modelled fragment of `regexp`. -/
inductive Outcome (α : Type)
  | ok (result : α)
  | error (code : Str)
  | panic
  | unmodelled
deriving DecidableEq, Repr

/-- Function `escapeKey`. -/
def escapeKey (unescapedKey : Str) : Str :=
  stringsReplaceAll unescapedKey separator escapedSeparator

/-- Function `unescapeKey`. -/
def unescapeKey (escapedKey : Str) : Str :=
  stringsReplaceAll escapedKey escapedSeparator separator

/-- Function `getBucket`: `strings.Split(r.Host, subdomainSeparator)[0]`. -/
def getBucket (r : Request) : Str := (splitOnChar subdomainSeparator r.Host).headD []

/-- Function `getRegexpForList`: the nil pointer without a delimiter, else the pattern
`(` pfx `.*` delimiter `).*` compiled, nil when it does not compile. -/
def getRegexpForList (delimiter pfx : Str) : Regexp :=
  if delimiter ≠ [] then
    regexpCompile (['('] ++ (if pfx ≠ [] then pfx else []) ++ ['.', '*'] ++ delimiter ++ [')', '.', '*'])
  else .nil

/-- Function `mapCommonPrefixesToResult`: one `s3.CommonPrefix` a key of the map, given by
its `Prefix`.  Go ranges over a map in no fixed order; the entries are taken in the order
they were added. -/
def mapCommonPrefixesToResult (commonPrefixes : GoMap) : List Str := commonPrefixes.map Prod.fst

/-- The loop of `getDirFilesFromMarker`: `markerIndex` becomes the index of every entry
whose decoded name is the marker, so the last such entry wins. -/
def markerIndexLoop (marker : Option Str) : List FileInfo → Nat → Nat → Nat
  | [], _, markerIndex => markerIndex
  | d :: dir, i, markerIndex =>
    markerIndexLoop marker dir (i + 1)
      (if marker.isSome ∧ some (unescapeKey d.Name) = marker then i else markerIndex)

/-- Function `getDirFilesFromMarker`: `result[markerIndex:]`. -/
def getDirFilesFromMarker (fs : FS) (path : Path) (marker : Option Str) : List FileInfo :=
  let dir := ioutilReadDir fs path
  dir.drop (markerIndexLoop marker dir 0 0)

/-- An `s3.Object` of the listing. -/
structure Object where
  Key : Str
  Size : Int
  LastModified : Int
  ETag : Str
deriving DecidableEq, Repr

/-- The `s3.ListObjectsOutput`; an unset `IsTruncated` is `none`, unset `CommonPrefixes` are
the empty list. -/
structure ListObjectsOutput where
  Name : Str
  Marker : Str
  Prefix : Str
  Delimiter : Str
  MaxKeys : Int
  Contents : List Object
  IsTruncated : Option Bool
  CommonPrefixes : List Str
deriving DecidableEq, Repr

/-- The variables the loop of `listObjects` updates. -/
structure ListState where
  count : Int
  commonPrefixes : GoMap
  contents : List Object
  isTruncated : Option Bool
deriving DecidableEq, Repr

/-- Lines 135-141 of `listObjects`: with a delimiter, a name the pattern matches adds group 1
to the common prefixes and loses its first occurrence of group 1.  Calling
`FindStringSubmatch` on the nil pointer panics. -/
def groupEntry (delimiter : Str) (re : Regexp) (name : Str) (commonPrefixes : GoMap) :
    Outcome (Str × GoMap) :=
  if delimiter ≠ [] then
    match re with
    | .compiled prog =>
      match findStringSubmatch prog name with
      | some cp => .ok (stringsReplace name (cp.getD 1 []) [] 1, mapSet commonPrefixes (cp.getD 1 []) true)
      | none => .ok (name, commonPrefixes)
    | .nil => .panic
    | .unmodelled => .unmodelled
  else .ok (name, commonPrefixes)

/-- The `s3.Object` built at lines 149-153. -/
def newObject (name : Str) (d : FileInfo) : Object :=
  { Key := name, Size := d.Size, LastModified := d.ModTime, ETag := strconvFormatInt d.ModTime }

/-- The loop of `listObjects` (lines 128-157) over `files`. -/
def listLoop (pfx delimiter : Str) (re : Regexp) (maxKeys : Int) :
    List FileInfo → ListState → Outcome ListState
  | [], st => .ok st
  | d :: files, st =>
    if pfx ≠ [] ∧ ¬ stringsHasPrefix (unescapeKey d.Name) pfx = true then
      listLoop pfx delimiter re maxKeys files st
    else
      match groupEntry delimiter re (unescapeKey d.Name) st.commonPrefixes with
      | .ok (name, commonPrefixes) =>
        if maxKeys ≠ 0 ∧ st.count ≥ maxKeys then
          .ok { st with commonPrefixes := commonPrefixes, isTruncated := some true }
        else
          listLoop pfx delimiter re maxKeys files
            { count := st.count + 1, commonPrefixes := commonPrefixes,
              contents := st.contents ++ [newObject name d], isTruncated := st.isTruncated }
      | .error code => .error code
      | .panic => .panic
      | .unmodelled => .unmodelled

/-- Function `listObjects`.  `make([]*s3.Object, 0, maxKeys)` panics for a negative
`maxKeys`; the allocation of a non-negative capacity is taken to succeed. -/
def listObjects (fs : FS) (localS3Path : Path) (r : Request) : Outcome ListObjectsOutput :=
  let bucket := getBucket r
  let path := filepathJoin localS3Path [bucket]
  if (osStat fs path).isNone then .error ErrCodeNoSuchBucket
  else
    let re := getRegexpForList r.Delimiter r.Prefix
    let files := getDirFilesFromMarker fs path (some r.Marker)
    if r.MaxKeys < 0 then .panic
    else
      match listLoop r.Prefix r.Delimiter re r.MaxKeys files
          { count := 0, commonPrefixes := [], contents := [], isTruncated := none } with
      | .ok st =>
        .ok { Name := bucket, Marker := r.Marker, Prefix := r.Prefix, Delimiter := r.Delimiter,
              MaxKeys := r.MaxKeys, Contents := st.contents, IsTruncated := st.isTruncated,
              CommonPrefixes :=
                if r.Delimiter ≠ [] then mapCommonPrefixesToResult st.commonPrefixes else [] }
      | .error code => .error code
      | .panic => .panic
      | .unmodelled => .unmodelled

/-- The `s3.DeleteObjectOutput`. -/
structure DeleteObjectOutput where
  DeleteMarker : Option Bool
deriving DecidableEq, Repr

/-- Function `deleteObject`: the file system afterwards and the result. -/
def deleteObject (fs : FS) (localS3Path : Path) (r : Request) : FS × DeleteObjectOutput :=
  let path := filepathJoin localS3Path [getBucket r, escapeKey r.Key]
  if (osStat fs path).isSome then (osRemove fs path, { DeleteMarker := some true })
  else (fs, { DeleteMarker := none })

/-- An `s3.DeletedObject`. -/
structure DeletedObject where
  DeleteMarker : Option Bool
  Key : Option Str
deriving DecidableEq, Repr

/-- The body of the loop of `deleteObjects` (lines 341-349). -/
def deleteStep (path : Path) (acc : FS × List DeletedObject) (d : FileInfo) :
    FS × List DeletedObject :=
  let name := unescapeKey d.Name
  (osRemoveAll acc.1 (filepathJoin path [name]),
    acc.2 ++ [{ DeleteMarker := some true, Key := some name }])

/-- Function `deleteObjects`: the file system afterwards and the `Deleted` list. -/
def deleteObjects (fs : FS) (localS3Path : Path) (r : Request) : FS × List DeletedObject :=
  let path := filepathJoin localS3Path [getBucket r]
  (ioutilReadDir fs path).foldl (deleteStep path) (fs, [])

/-! ## Vocabulary of the statements -/

/-- The directory of the bucket the request names. -/
def bucketPath (localS3Path : Path) (r : Request) : Path :=
  filepathJoin localS3Path [getBucket r]

/-- The entry passes the filter of line 131: its decoded name starts with `pfx`. -/
def passes (pfx : Str) (d : FileInfo) : Bool := stringsHasPrefix (unescapeKey d.Name) pfx

/-- The entries the loop of `listObjects` does not skip: those of the marker-resolved
snapshot whose decoded name starts with the requested start, in scan order. -/
def matching (fs : FS) (localS3Path : Path) (r : Request) : List FileInfo :=
  (getDirFilesFromMarker fs (bucketPath localS3Path r) (some r.Marker)).filter (passes r.Prefix)

/-- The common-prefix label of a name: group 1 of the match when there is a delimiter and
the compiled pattern matches the name. -/
def labelOf (delimiter : Str) (re : Regexp) (name : Str) : Option Str :=
  if delimiter ≠ [] then
    match re with
    | .compiled prog => (findStringSubmatch prog name).map (fun cp => cp.getD 1 [])
    | _ => none
  else none

/-- The key shown for a name: the name without the first occurrence of its label. -/
def shownKey (delimiter : Str) (re : Regexp) (name : Str) : Str :=
  match labelOf delimiter re name with
  | some l => stringsReplace name l [] 1
  | none => name

/-- The `s3.Object` the loop appends for an entry. -/
def entryObject (delimiter : Str) (re : Regexp) (d : FileInfo) : Object :=
  newObject (shownKey delimiter re (unescapeKey d.Name)) d

/-- A map with the label of one more name. -/
def addLabel (delimiter : Str) (re : Regexp) (m : GoMap) (d : FileInfo) : GoMap :=
  match labelOf delimiter re (unescapeKey d.Name) with
  | some l => mapSet m l true
  | none => m

/-- How many more entries the loop appends when `count` are appended and `ms` are left. -/
def budget (maxKeys count : Int) (ms : List FileInfo) : Nat :=
  if maxKeys = 0 then ms.length else (maxKeys - count).toNat

/-- The pattern is usable: there is no delimiter, or the pattern compiled. -/
def patternOk (delimiter : Str) (re : Regexp) : Prop :=
  delimiter = [] ∨ ∃ prog, re = .compiled prog

/-- A legal name of a directory entry. -/
def validName (c : Str) : Prop := c ≠ [] ∧ '/' ∉ c ∧ c ≠ ['.'] ∧ c ≠ ['.', '.']

/-- A well-formed file system: no two entries at one path, every component a legal name. -/
def wellFormed (fs : FS) : Prop :=
  (fs.map Node.path).Nodup ∧ ∀ n ∈ fs, ∀ c ∈ n.path, validName c

/-! ## Stores and requests of the scenarios -/

/-- A regular file at a path. -/
def fileAt (p : List String) (size modTime : Int) : Node :=
  { path := p.map String.toList, isDir := false, size := size, modTime := modTime }

/-- A directory at a path. -/
def dirAt (p : List String) : Node :=
  { path := p.map String.toList, isDir := true, size := 0, modTime := 0 }

/-- The storage root `/srv/s3`. -/
def storeRoot : Path := ["srv".toList, "s3".toList]

/-- A request on the host `host` with no form value and no key. -/
def requestOn (host : String) : Request :=
  { Host := host.toList, Marker := [], Prefix := [], MaxKeys := 0, Delimiter := [], Key := [] }

/-- The store of scenario A: bucket `photos` with the keys `a`, `b`, `c`. -/
def photosStore : FS :=
  [dirAt ["srv"], dirAt ["srv", "s3"], dirAt ["srv", "s3", "photos"],
    fileAt ["srv", "s3", "photos", "a"] 10 100, fileAt ["srv", "s3", "photos", "b"] 20 200,
    fileAt ["srv", "s3", "photos", "c"] 30 300]

/-- The store of scenario B: bucket `logs` with the keys `2024/01/a.log`, `2024/02/b.log`. -/
def logsStore : FS :=
  [dirAt ["srv"], dirAt ["srv", "s3"], dirAt ["srv", "s3", "logs"],
    fileAt ["srv", "s3", "logs", "2024%2f01%2fa.log"] 10 100,
    fileAt ["srv", "s3", "logs", "2024%2f02%2fb.log"] 20 200]

/-- The request of scenario B. -/
def logsRequest : Request :=
  { requestOn "logs.localhost" with Prefix := "2024/".toList, Delimiter := "/".toList }

/-- What `listObjects` answers in scenario B. -/
def logsListing : ListObjectsOutput :=
  { Name := "logs".toList, Marker := [], Prefix := "2024/".toList, Delimiter := "/".toList,
    MaxKeys := 0,
    Contents := [
      { Key := "a.log".toList, Size := 10, LastModified := 100, ETag := "100".toList },
      { Key := "b.log".toList, Size := 20, LastModified := 200, ETag := "200".toList }],
    IsTruncated := none,
    CommonPrefixes := ["2024/01/".toList, "2024/02/".toList] }

/-- A bucket `docs` with the keys `a`, `b`, `c/1`, `c/2`. -/
def docsStore : FS :=
  [dirAt ["srv"], dirAt ["srv", "s3"], dirAt ["srv", "s3", "docs"],
    fileAt ["srv", "s3", "docs", "a"] 1 100, fileAt ["srv", "s3", "docs", "b"] 2 200,
    fileAt ["srv", "s3", "docs", "c%2f1"] 3 300, fileAt ["srv", "s3", "docs", "c%2f2"] 4 400]

/-- A listing of `docs` with delimiter `/` and `max-keys=1`. -/
def docsRequest : Request :=
  { requestOn "docs.localhost" with Delimiter := "/".toList, MaxKeys := 1 }

/-- What `listObjects` answers to `docsRequest`. -/
def docsListing : ListObjectsOutput :=
  { Name := "docs".toList, Marker := [], Prefix := [], Delimiter := "/".toList, MaxKeys := 1,
    Contents := [{ Key := "a".toList, Size := 1, LastModified := 100, ETag := "100".toList }],
    IsTruncated := some true,
    CommonPrefixes := [] }

/-- A bucket `logs` with the one key `a/b`, stored by `putObject` as the file `a%2fb`. -/
def nestedStore : FS :=
  [dirAt ["srv"], dirAt ["srv", "s3"], dirAt ["srv", "s3", "logs"],
    fileAt ["srv", "s3", "logs", "a%2fb"] 5 100]

/-- A listing of `docs` with delimiter `/` and no limit. -/
def docsAllRequest : Request :=
  { requestOn "docs.localhost" with Delimiter := "/".toList }

/-- What `listObjects` answers to `docsAllRequest`. -/
def docsAllListing : ListObjectsOutput :=
  { Name := "docs".toList, Marker := [], Prefix := [], Delimiter := "/".toList, MaxKeys := 0,
    Contents := [
      { Key := "a".toList, Size := 1, LastModified := 100, ETag := "100".toList },
      { Key := "b".toList, Size := 2, LastModified := 200, ETag := "200".toList },
      { Key := "1".toList, Size := 3, LastModified := 300, ETag := "300".toList },
      { Key := "2".toList, Size := 4, LastModified := 400, ETag := "400".toList }],
    IsTruncated := none,
    CommonPrefixes := ["c/".toList] }

/-! ## Lemmas -/

/-! ### The key codec -/

theorem replaceFrom_neg_irrel (old new : Str) (s : Str) (k : Nat) (n m : Int) (hn : n < 0)
    (hm : m < 0) : replaceFrom old new s k n = replaceFrom old new s k m := by
  induction s generalizing k n m with
  | nil => simp [replaceFrom]
  | cons c s ih =>
    cases k with
    | succ k => simp only [replaceFrom]; exact ih k n m hn hm
    | zero =>
      have h1 : n ≠ 0 := by omega
      have h2 : m ≠ 0 := by omega
      simp only [replaceFrom, h1, h2, ne_eq, not_false_eq_true, true_and]
      rw [ih _ (n - 1) (m - 1) (by omega) (by omega), ih 0 n m hn hm]

theorem escapeKey_nil : escapeKey [] = [] := by
  simp [escapeKey, stringsReplaceAll, stringsReplace, separator, escapedSeparator, replaceFrom]

theorem escapeKey_cons (c : Char) (k : Str) :
    escapeKey (c :: k) = if c = '/' then '%' :: '2' :: 'f' :: escapeKey k else c :: escapeKey k := by
  have e : ∀ s, escapeKey s = replaceFrom ['/'] ['%', '2', 'f'] s 0 (-1) := by
    intro s; simp [escapeKey, stringsReplaceAll, stringsReplace, separator, escapedSeparator]
  rw [e, e]
  simp only [replaceFrom]
  by_cases h : c = '/'
  · subst h
    simp
    exact replaceFrom_neg_irrel _ _ _ _ _ _ (by decide) (by decide)
  · have : ¬ ['/'] <+: c :: k := by
      rw [List.cons_prefix_cons]; intro h2; exact h h2.1.symm
    simp [h, this]

theorem unescapeKey_nil : unescapeKey [] = [] := by
  simp [unescapeKey, stringsReplaceAll, stringsReplace, separator, escapedSeparator, replaceFrom]

theorem unescapeKey_eq (s : Str) : unescapeKey s = replaceFrom ['%', '2', 'f'] ['/'] s 0 (-1) := by
  simp [unescapeKey, stringsReplaceAll, stringsReplace, separator, escapedSeparator]

theorem unescapeKey_token (t : Str) : unescapeKey ('%' :: '2' :: 'f' :: t) = '/' :: unescapeKey t := by
  rw [unescapeKey_eq, unescapeKey_eq]
  simp [replaceFrom, List.cons_prefix_cons]
  exact replaceFrom_neg_irrel _ _ _ _ _ _ (by decide) (by decide)

theorem unescapeKey_cons_of_not (c : Char) (s : Str) (h : ¬ ['%', '2', 'f'] <+: c :: s) :
    unescapeKey (c :: s) = c :: unescapeKey s := by
  rw [unescapeKey_eq, unescapeKey_eq]
  simp [replaceFrom, h]

theorem tail_of_escapeKey (k : Str) (h : ['2', 'f'] <+: escapeKey k) : ['2', 'f'] <+: k := by
  cases k with
  | nil => simp [escapeKey_nil] at h
  | cons a k =>
    rw [escapeKey_cons] at h
    by_cases ha : a = '/'
    · simp [ha, List.cons_prefix_cons] at h
    · simp only [ha, if_false, List.cons_prefix_cons] at h
      obtain ⟨h1, h2⟩ := h
      cases k with
      | nil => simp [escapeKey_nil] at h2
      | cons b k =>
        rw [escapeKey_cons] at h2
        by_cases hb : b = '/'
        · simp [hb, List.cons_prefix_cons] at h2
        · simp only [hb, if_false, List.cons_prefix_cons] at h2
          simp only [List.cons_prefix_cons, List.nil_prefix, and_true]
          exact ⟨h1, h2.1⟩

theorem unescape_escape_aux (k : Str) (h : ¬ escapedSeparator <:+: k) :
    unescapeKey (escapeKey k) = k := by
  induction k with
  | nil => simp [escapeKey_nil, unescapeKey_nil]
  | cons c k ih =>
    have hk : ¬ escapedSeparator <:+: k := fun hh => h (hh.trans (List.suffix_cons c k).isInfix)
    rw [escapeKey_cons]
    by_cases hc : c = '/'
    · simp only [hc, if_true]
      rw [unescapeKey_token, ih hk]
    · simp only [hc, if_false]
      have hp : ¬ ['%', '2', 'f'] <+: c :: escapeKey k := by
        intro hp
        rw [List.cons_prefix_cons] at hp
        have h2 := tail_of_escapeKey k hp.2
        apply h
        have : escapedSeparator <+: c :: k := by
          simp only [escapedSeparator, List.cons_prefix_cons]
          exact ⟨hp.1, h2⟩
        exact this.isInfix
      rw [unescapeKey_cons_of_not c _ hp, ih hk]

theorem escape_unescape_aux : ∀ (m : Nat) (n : Str), n.length ≤ m → '/' ∉ n →
    escapeKey (unescapeKey n) = n := by
  intro m
  induction m with
  | zero =>
    intro n hn _
    have : n = [] := List.length_eq_zero.mp (by omega)
    subst this
    simp [escapeKey_nil, unescapeKey_nil]
  | succ m ih =>
    intro n hn hs
    cases n with
    | nil => simp [escapeKey_nil, unescapeKey_nil]
    | cons c n =>
      by_cases hp : ['%', '2', 'f'] <+: c :: n
      · obtain ⟨t, ht⟩ := hp
        simp only [List.cons_append, List.nil_append] at ht
        rw [← ht, unescapeKey_token, escapeKey_cons]
        simp only [if_true]
        have ht2 : t.length ≤ m := by
          have := congrArg List.length ht
          simp at this hn
          omega
        have hs2 : '/' ∉ t := by
          intro hh
          apply hs
          rw [← ht]
          simp [hh]
        rw [ih t ht2 hs2]
      · rw [unescapeKey_cons_of_not c n hp, escapeKey_cons]
        have hc : c ≠ '/' := by
          intro hh; apply hs; simp [hh]
        have hs2 : '/' ∉ n := by
          intro hh; apply hs; simp [hh]
        simp only [hc, if_false]
        rw [ih n (by simp at hn; omega) hs2]

theorem escape_unescape_of_no_sep (n : Str) (h : '/' ∉ n) : escapeKey (unescapeKey n) = n :=
  escape_unescape_aux n.length n le_rfl h

theorem unescapeKey_injOn (n m : Str) (hn : '/' ∉ n) (hm : '/' ∉ m)
    (h : unescapeKey n = unescapeKey m) : n = m := by
  rw [← escape_unescape_of_no_sep n hn, ← escape_unescape_of_no_sep m hm, h]

/-! ### The loop of `listObjects` -/

theorem groupEntry_ok (delimiter : Str) (re : Regexp) (name : Str) (m : GoMap) (x : Str × GoMap)
    (h : groupEntry delimiter re name m = .ok x) :
    x.1 = shownKey delimiter re name ∧
      x.2 = (match labelOf delimiter re name with | some l => mapSet m l true | none => m) := by
  unfold groupEntry at h
  unfold shownKey labelOf
  by_cases hd : delimiter = []
  · simp only [hd, ne_eq, not_true_eq_false, if_false] at h ⊢
    cases h; exact ⟨rfl, rfl⟩
  · simp only [hd, ne_eq, not_false_eq_true, if_true] at h ⊢
    cases re with
    | nil => cases h
    | unmodelled => cases h
    | compiled prog =>
      simp only at h ⊢
      cases hf : findStringSubmatch prog name with
      | none => rw [hf] at h; simp only at h; cases h; exact ⟨rfl, rfl⟩
      | some cp => rw [hf] at h; simp only at h; cases h; exact ⟨rfl, rfl⟩

theorem groupEntry_total (delimiter : Str) (re : Regexp) (name : Str) (m : GoMap)
    (hre : patternOk delimiter re) : ∃ x, groupEntry delimiter re name m = .ok x := by
  unfold groupEntry
  by_cases hd : delimiter = []
  · simp [hd]
  · rcases hre with h | ⟨prog, h⟩
    · exact absurd h hd
    · subst h
      simp only [hd, ne_eq, not_false_eq_true, if_true]
      cases findStringSubmatch prog name <;> simp

theorem skip_iff (pfx : Str) (d : FileInfo) :
    (pfx ≠ [] ∧ ¬ stringsHasPrefix (unescapeKey d.Name) pfx = true) ↔ passes pfx d = false := by
  unfold passes
  constructor
  · intro h; simpa using h.2
  · intro h
    refine ⟨?_, by simp [h]⟩
    intro hp
    subst hp
    simp [stringsHasPrefix] at h

theorem budget_cons_pos (maxKeys count : Int) (d : FileInfo) (ms : List FileInfo)
    (h : ¬ (maxKeys ≠ 0 ∧ count ≥ maxKeys)) :
    budget maxKeys count (d :: ms) = budget maxKeys (count + 1) ms + 1 := by
  unfold budget
  by_cases h0 : maxKeys = 0
  · simp [h0]
  · simp only [h0, if_false]
    have : count < maxKeys := by
      by_contra hh
      exact h ⟨h0, by omega⟩
    omega

theorem budget_zero (maxKeys count : Int) (ms : List FileInfo)
    (h : maxKeys ≠ 0 ∧ count ≥ maxKeys) : budget maxKeys count ms = 0 := by
  unfold budget
  simp only [h.1, if_false]
  omega

/-- What the loop of `listObjects` leaves when it ends without a panic. -/
theorem listLoop_ok (pfx delimiter : Str) (re : Regexp) (maxKeys : Int) :
    ∀ (files : List FileInfo) (st st' : ListState),
      listLoop pfx delimiter re maxKeys files st = .ok st' →
      st'.contents = st.contents ++
        ((files.filter (passes pfx)).take (budget maxKeys st.count (files.filter (passes pfx)))).map
          (entryObject delimiter re) ∧
      st'.isTruncated =
        (if budget maxKeys st.count (files.filter (passes pfx)) < (files.filter (passes pfx)).length
          then some true else st.isTruncated) ∧
      st'.commonPrefixes =
        ((files.filter (passes pfx)).take
          (budget maxKeys st.count (files.filter (passes pfx)) + 1)).foldl
          (addLabel delimiter re) st.commonPrefixes := by
  intro files
  induction files with
  | nil =>
    intro st st' h
    simp only [listLoop] at h
    cases h
    simp [budget]
  | cons d files ih =>
    intro st st' h
    rw [listLoop] at h
    by_cases hs : passes pfx d = false
    · rw [if_pos ((skip_iff pfx d).mpr hs)] at h
      have := ih st st' h
      simpa [List.filter_cons, hs] using this
    · rw [if_neg (fun hh => hs ((skip_iff pfx d).mp hh))] at h
      have hp : passes pfx d = true := by simpa using hs
      cases hg : groupEntry delimiter re (unescapeKey d.Name) st.commonPrefixes with
      | error code => rw [hg] at h; cases h
      | panic => rw [hg] at h; cases h
      | unmodelled => rw [hg] at h; cases h
      | ok x =>
        obtain ⟨name, cps⟩ := x
        rw [hg] at h
        simp only at h
        obtain ⟨hn, hc⟩ := groupEntry_ok _ _ _ _ _ hg
        simp only at hn hc
        have hc' : cps = addLabel delimiter re st.commonPrefixes d := by
          rw [hc]; unfold addLabel; rfl
        by_cases hl : maxKeys ≠ 0 ∧ st.count ≥ maxKeys
        · rw [if_pos hl] at h
          cases h
          have hb := budget_zero maxKeys st.count (d :: files.filter (passes pfx)) hl
          simp [List.filter_cons, hp, hb, hc']
        · rw [if_neg hl] at h
          have := ih _ st' h
          have hb := budget_cons_pos maxKeys st.count d (files.filter (passes pfx)) hl
          simp only at this
          obtain ⟨h1, h2, h3⟩ := this
          simp only [List.filter_cons, hp, if_true, hb, List.take_succ_cons, List.map_cons,
            List.length_cons, List.foldl_cons, Nat.add_lt_add_iff_right]
          refine ⟨?_, h2, ?_⟩
          · rw [h1, hn]; simp [entryObject]
          · rw [h3, hc']

theorem listLoop_total (pfx delimiter : Str) (re : Regexp) (maxKeys : Int)
    (hre : patternOk delimiter re) :
    ∀ (files : List FileInfo) (st : ListState),
      ∃ st', listLoop pfx delimiter re maxKeys files st = .ok st' := by
  intro files
  induction files with
  | nil => intro st; exact ⟨st, by simp [listLoop]⟩
  | cons d files ih =>
    intro st
    rw [listLoop]
    by_cases hs : pfx ≠ [] ∧ ¬ stringsHasPrefix (unescapeKey d.Name) pfx = true
    · rw [if_pos hs]; exact ih st
    · rw [if_neg hs]
      obtain ⟨x, hx⟩ := groupEntry_total delimiter re (unescapeKey d.Name) st.commonPrefixes hre
      rw [hx]
      simp only
      split
      · exact ⟨_, rfl⟩
      · exact ih _

/-- What `listObjects` hands to `addResponse` when it gets that far. -/
theorem listObjects_ok (fs : FS) (root : Path) (r : Request) (out : ListObjectsOutput)
    (h : listObjects fs root r = .ok out) :
    (osStat fs (bucketPath root r)).isSome = true ∧ 0 ≤ r.MaxKeys ∧
    out.Contents =
      ((matching fs root r).take (budget r.MaxKeys 0 (matching fs root r))).map
        (entryObject r.Delimiter (getRegexpForList r.Delimiter r.Prefix)) ∧
    out.IsTruncated =
      (if budget r.MaxKeys 0 (matching fs root r) < (matching fs root r).length
        then some true else none) ∧
    out.CommonPrefixes =
      (if r.Delimiter ≠ [] then
        mapCommonPrefixesToResult
          (((matching fs root r).take (budget r.MaxKeys 0 (matching fs root r) + 1)).foldl
            (addLabel r.Delimiter (getRegexpForList r.Delimiter r.Prefix)) [])
      else []) := by
  unfold listObjects at h
  simp only at h
  by_cases hb : (osStat fs (filepathJoin root [getBucket r])).isNone = true
  · rw [if_pos hb] at h; cases h
  · rw [if_neg hb] at h
    by_cases hk : r.MaxKeys < 0
    · rw [if_pos hk] at h; cases h
    · rw [if_neg hk] at h
      cases hl : listLoop r.Prefix r.Delimiter (getRegexpForList r.Delimiter r.Prefix) r.MaxKeys
          (getDirFilesFromMarker fs (filepathJoin root [getBucket r]) (some r.Marker))
          { count := 0, commonPrefixes := [], contents := [], isTruncated := none } with
      | error code => rw [hl] at h; cases h
      | panic => rw [hl] at h; cases h
      | unmodelled => rw [hl] at h; cases h
      | ok st =>
        rw [hl] at h
        simp only at h
        cases h
        obtain ⟨h1, h2, h3⟩ := listLoop_ok _ _ _ _ _ _ _ hl
        simp only [List.nil_append] at h1 h2 h3
        refine ⟨?_, by omega, ?_, ?_, ?_⟩
        · unfold bucketPath
          cases hh : osStat fs (filepathJoin root [getBucket r]) with
          | none => simp [hh] at hb
          | some n => rfl
        · exact h1
        · exact h2
        · simp only [matching, bucketPath]
          rw [h3]

theorem listObjects_total (fs : FS) (root : Path) (r : Request)
    (hb : (osStat fs (bucketPath root r)).isSome = true) (hk : 0 ≤ r.MaxKeys)
    (hre : patternOk r.Delimiter (getRegexpForList r.Delimiter r.Prefix)) :
    ∃ out, listObjects fs root r = .ok out := by
  unfold listObjects
  simp only
  unfold bucketPath at hb
  have hb' : ¬ (osStat fs (filepathJoin root [getBucket r])).isNone = true := by
    cases hh : osStat fs (filepathJoin root [getBucket r]) with
    | none => simp [hh] at hb
    | some n => simp
  rw [if_neg hb', if_neg (by omega : ¬ r.MaxKeys < 0)]
  obtain ⟨st, hst⟩ := listLoop_total r.Prefix r.Delimiter _ r.MaxKeys hre
    (getDirFilesFromMarker fs (filepathJoin root [getBucket r]) (some r.Marker))
    { count := 0, commonPrefixes := [], contents := [], isTruncated := none }
  rw [hst]
  exact ⟨_, rfl⟩

/-! ### The marker -/

theorem markerIndexLoop_none (k : Str) :
    ∀ (dir : List FileInfo) (i mi : Nat), (∀ d ∈ dir, unescapeKey d.Name ≠ k) →
      markerIndexLoop (some k) dir i mi = mi := by
  intro dir
  induction dir with
  | nil => intro i mi _; rfl
  | cons d dir ih =>
    intro i mi h
    rw [markerIndexLoop]
    have hd : unescapeKey d.Name ≠ k := h d (List.mem_cons_self _ _)
    have : ¬ ((some k).isSome = true ∧ some (unescapeKey d.Name) = some k) := by
      intro hh; exact hd (Option.some.inj hh.2)
    rw [if_neg this]
    exact ih (i + 1) mi (fun e he => h e (List.mem_cons_of_mem _ he))

theorem markerIndexLoop_some (k : Str) :
    ∀ (dir : List FileInfo) (i mi : Nat), (∃ d ∈ dir, unescapeKey d.Name = k) →
      ∃ j d rest, markerIndexLoop (some k) dir i mi = i + j ∧ dir.drop j = d :: rest ∧
        unescapeKey d.Name = k := by
  intro dir
  induction dir with
  | nil => intro i mi h; obtain ⟨d, hd, _⟩ := h; cases hd
  | cons d dir ih =>
    intro i mi h
    rw [markerIndexLoop]
    by_cases hr : ∃ e ∈ dir, unescapeKey e.Name = k
    · obtain ⟨j, e, rest, h1, h2, h3⟩ := ih (i + 1)
        (if (some k).isSome = true ∧ some (unescapeKey d.Name) = some k then i else mi) hr
      exact ⟨j + 1, e, rest, by rw [h1]; omega, by simpa using h2, h3⟩
    · have hd : unescapeKey d.Name = k := by
        obtain ⟨e, he, hek⟩ := h
        rcases List.mem_cons.mp he with rfl | he'
        · exact hek
        · exact absurd ⟨e, he', hek⟩ hr
      have hn : ∀ e ∈ dir, unescapeKey e.Name ≠ k := fun e he hek => hr ⟨e, he, hek⟩
      rw [markerIndexLoop_none k dir _ _ hn]
      rw [if_pos ⟨rfl, by rw [hd]⟩]
      exact ⟨0, d, dir, by omega, rfl, hd⟩

theorem unescapeKey_eq_nil (n : Str) (h : unescapeKey n = []) : n = [] := by
  cases n with
  | nil => rfl
  | cons c s =>
    exfalso
    by_cases hp : ['%', '2', 'f'] <+: c :: s
    · obtain ⟨t, ht⟩ := hp
      simp only [List.cons_append, List.nil_append] at ht
      rw [← ht, unescapeKey_token] at h
      cases h
    · rw [unescapeKey_cons_of_not c s hp] at h
      cases h

/-! ### Directory snapshots and maps -/

theorem childOf_some (p : Path) (n : Node) (d : FileInfo) (h : childOf p n = some d) :
    n.path = p ++ [d.Name] := by
  unfold childOf at h
  cases hr : n.path.reverse with
  | nil => rw [hr] at h; cases h
  | cons name parent =>
    rw [hr] at h
    simp only at h
    by_cases hp : parent.reverse = p
    · rw [if_pos hp] at h
      cases h
      have := congrArg List.reverse hr
      simp only [List.reverse_reverse, List.reverse_cons] at this
      rw [this, hp]
    · rw [if_neg hp] at h; cases h

theorem mem_ioutilReadDir (fs : FS) (p : Path) (d : FileInfo) :
    d ∈ ioutilReadDir fs p ↔ d ∈ fs.filterMap (childOf p) :=
  (List.perm_insertionSort _ _).mem_iff

theorem validName_of_mem_readDir (fs : FS) (p : Path) (hwf : wellFormed fs) (d : FileInfo)
    (hd : d ∈ ioutilReadDir fs p) : validName d.Name := by
  rw [mem_ioutilReadDir, List.mem_filterMap] at hd
  obtain ⟨n, hn, hc⟩ := hd
  have hp := childOf_some p n d hc
  exact hwf.2 n hn d.Name (by rw [hp]; simp)

theorem names_nodup_readDir (fs : FS) (p : Path) (hwf : wellFormed fs) :
    ((ioutilReadDir fs p).map FileInfo.Name).Nodup := by
  have hperm : ((ioutilReadDir fs p).map FileInfo.Name).Perm
      ((fs.filterMap (childOf p)).map FileInfo.Name) :=
    (List.perm_insertionSort _ _).map _
  rw [hperm.nodup_iff]
  have e : (fs.filterMap (childOf p)).map FileInfo.Name =
      (fs.map Node.path).filterMap (fun q =>
        match q.reverse with
        | [] => none
        | name :: parent => if parent.reverse = p then some name else none) := by
    rw [List.filterMap_map, List.map_filterMap]
    congr 1
    funext n
    simp only [Function.comp, childOf]
    cases n.path.reverse with
    | nil => rfl
    | cons name parent =>
      simp only
      by_cases hp : parent.reverse = p <;> simp [hp]
  rw [e]
  apply List.Nodup.filterMap _ hwf.1
  intro q q' name h h'
  have key : ∀ q : Path, (name ∈ (match q.reverse with
        | [] => none
        | name :: parent => if parent.reverse = p then some name else none : Option Str)) →
      q = p ++ [name] := by
    intro q hq
    cases hr : q.reverse with
    | nil => rw [hr] at hq; cases hq
    | cons nm parent =>
      rw [hr] at hq
      simp only at hq
      by_cases hp : parent.reverse = p
      · rw [if_pos hp] at hq
        cases hq
        have := congrArg List.reverse hr
        simp only [List.reverse_reverse, List.reverse_cons] at this
        rw [this, hp]
      · rw [if_neg hp] at hq; cases hq
  rw [key q h, key q' h']

theorem decoded_nodup_readDir (fs : FS) (p : Path) (hwf : wellFormed fs) :
    ((ioutilReadDir fs p).map (fun d => unescapeKey d.Name)).Nodup := by
  have h1 := names_nodup_readDir fs p hwf
  have : (ioutilReadDir fs p).map (fun d => unescapeKey d.Name) =
      ((ioutilReadDir fs p).map FileInfo.Name).map unescapeKey := by
    rw [List.map_map]; rfl
  rw [this]
  apply List.Nodup.map_on _ h1
  intro a ha b hb hab
  rw [List.mem_map] at ha hb
  obtain ⟨d, hd, rfl⟩ := ha
  obtain ⟨e, he, rfl⟩ := hb
  exact unescapeKey_injOn _ _ (validName_of_mem_readDir fs p hwf d hd).2.1
    (validName_of_mem_readDir fs p hwf e he).2.1 hab

/-! ### Common-prefix maps -/

theorem keys_mapSet (m : GoMap) (k : Str) (v : Bool) :
    (mapSet m k v).map Prod.fst = if k ∈ m.map Prod.fst then m.map Prod.fst else m.map Prod.fst ++ [k] := by
  unfold mapSet
  by_cases h : k ∈ m.map Prod.fst
  · have h2 : m.any (fun e => decide (e.1 = k)) = true := by
      rw [List.any_eq_true]
      obtain ⟨e, he, hek⟩ := List.mem_map.mp h
      exact ⟨e, he, by simp [hek]⟩
    rw [if_pos h2, if_pos h, List.map_map]
    apply List.map_congr_left
    intro e _
    simp only [Function.comp]
    by_cases hek : e.1 = k <;> simp [hek]
  · have h2 : ¬ m.any (fun e => decide (e.1 = k)) = true := by
      rw [List.any_eq_true]
      rintro ⟨e, he, hek⟩
      apply h
      exact List.mem_map.mpr ⟨e, he, by simpa using hek⟩
    rw [if_neg h2, if_neg h]
    simp

theorem keys_addLabel_nodup (delimiter : Str) (re : Regexp) (m : GoMap) (d : FileInfo)
    (h : (m.map Prod.fst).Nodup) : ((addLabel delimiter re m d).map Prod.fst).Nodup := by
  unfold addLabel
  cases labelOf delimiter re (unescapeKey d.Name) with
  | none => exact h
  | some l =>
    simp only
    rw [keys_mapSet]
    by_cases hl : l ∈ m.map Prod.fst
    · rw [if_pos hl]; exact h
    · rw [if_neg hl]
      rw [List.nodup_append]
      refine ⟨h, List.nodup_singleton l, ?_⟩
      intro a ha hb
      rw [List.mem_singleton] at hb
      subst hb
      exact hl ha

theorem keys_foldl_nodup (delimiter : Str) (re : Regexp) :
    ∀ (ms : List FileInfo) (m : GoMap), (m.map Prod.fst).Nodup →
      ((ms.foldl (addLabel delimiter re) m).map Prod.fst).Nodup := by
  intro ms
  induction ms with
  | nil => intro m h; exact h
  | cons d ms ih => intro m h; exact ih _ (keys_addLabel_nodup delimiter re m d h)

theorem keys_addLabel_mono (delimiter : Str) (re : Regexp) (m : GoMap) (d : FileInfo) (s : Str)
    (h : s ∈ m.map Prod.fst) : s ∈ (addLabel delimiter re m d).map Prod.fst := by
  unfold addLabel
  cases labelOf delimiter re (unescapeKey d.Name) with
  | none => exact h
  | some l =>
    simp only
    rw [keys_mapSet]
    split
    · exact h
    · exact List.mem_append_left _ h

theorem keys_foldl_mono (delimiter : Str) (re : Regexp) (s : Str) :
    ∀ (ms : List FileInfo) (m : GoMap), s ∈ m.map Prod.fst →
      s ∈ (ms.foldl (addLabel delimiter re) m).map Prod.fst := by
  intro ms
  induction ms with
  | nil => intro m h; exact h
  | cons d ms ih => intro m h; exact ih _ (keys_addLabel_mono delimiter re m d s h)

theorem keys_foldl_mem (delimiter : Str) (re : Regexp) (s : Str) :
    ∀ (ms : List FileInfo) (m : GoMap) (d : FileInfo), d ∈ ms →
      labelOf delimiter re (unescapeKey d.Name) = some s →
      s ∈ (ms.foldl (addLabel delimiter re) m).map Prod.fst := by
  intro ms
  induction ms with
  | nil => intro m d hd; cases hd
  | cons e ms ih =>
    intro m d hd hl
    rcases List.mem_cons.mp hd with rfl | hd'
    · refine keys_foldl_mono delimiter re s ms _ ?_
      unfold addLabel
      rw [hl]
      simp only
      rw [keys_mapSet]
      split
      · assumption
      · simp
    · exact ih _ d hd' hl

/-! ### The grouping pattern -/

theorem regexpParse_literals (rest : Str) (o : Option Nat) (n : Nat) (p : List Inst)
    (hrest : regexpParse rest o n = .compiled p) :
    ∀ lits : Str, (∀ c ∈ lits, isMeta c = false) →
      regexpParse (lits ++ rest) o n = .compiled (lits.map Inst.char ++ p) := by
  intro lits
  induction lits with
  | nil => intro _; simpa using hrest
  | cons c lits ih =>
    intro h
    have hc : isMeta c = false := h c (List.mem_cons_self _ _)
    have h1 : c ≠ '(' := by rintro rfl; revert hc; decide
    have h2 : c ≠ ')' := by rintro rfl; revert hc; decide
    have h3 : c ≠ '.' := by rintro rfl; revert hc; decide
    have ih' := ih (fun e he => h e (List.mem_cons_of_mem _ he))
    rw [List.cons_append, regexpParse.eq_def]
    simp only [h1, h2, h3, if_false, hc, ih', Regexp.cons, List.map_cons, Bool.false_eq_true,
      List.cons_append]

theorem getRegexpForList_literal (delimiter pfx : Str) (hd : delimiter ≠ [])
    (hp : ∀ c ∈ pfx, isMeta c = false) (hdm : ∀ c ∈ delimiter, isMeta c = false) :
    getRegexpForList delimiter pfx =
      .compiled (Inst.save 2 :: (pfx.map Inst.char ++
        (Inst.anyStar :: (delimiter.map Inst.char ++ [Inst.save 3, Inst.anyStar])))) := by
  unfold getRegexpForList regexpCompile
  rw [if_pos hd]
  have e : (['('] ++ (if pfx ≠ [] then pfx else []) ++ ['.', '*'] ++ delimiter ++ [')', '.', '*'] : Str)
      = '(' :: (pfx ++ ('.' :: '*' :: (delimiter ++ [')', '.', '*']))) := by
    by_cases h : pfx = [] <;> simp [h]
  rw [e]
  have t1 : regexpParse [')', '.', '*'] (some 1) 2 = .compiled [Inst.save 3, Inst.anyStar] := by
    decide
  have t2 := regexpParse_literals _ _ _ _ t1 delimiter hdm
  have t3 : regexpParse ('.' :: '*' :: (delimiter ++ [')', '.', '*'])) (some 1) 2 =
      .compiled (Inst.anyStar :: (delimiter.map Inst.char ++ [Inst.save 3, Inst.anyStar])) := by
    rw [regexpParse.eq_def]
    simp [t2, Regexp.cons]
  have t4 := regexpParse_literals _ _ _ _ t3 pfx hp
  rw [regexpParse.eq_def]
  simp [t4, Regexp.cons]

theorem matchHere_literals (prog : List Inst) (caps : Caps) :
    ∀ (lits s : Str) (pos : Nat),
      matchHere (lits.map Inst.char ++ prog) (lits ++ s) pos caps =
        matchHere prog s (pos + lits.length) caps := by
  intro lits
  induction lits with
  | nil => intro s pos; simp
  | cons c lits ih =>
    intro s pos
    simp only [List.map_cons, List.cons_append, matchHere, if_true, List.length_cons,
      List.append_eq]
    rw [ih]
    congr 1
    omega

theorem matchHere_literals_none (prog : List Inst) (caps : Caps) :
    ∀ (lits s : Str) (pos : Nat), ¬ lits <+: s →
      matchHere (lits.map Inst.char ++ prog) s pos caps = none := by
  intro lits
  induction lits with
  | nil => intro s pos h; exact absurd (List.nil_prefix) h
  | cons c lits ih =>
    intro s pos h
    cases s with
    | nil => simp [matchHere]
    | cons x s =>
      simp only [List.map_cons, List.cons_append, matchHere]
      by_cases hx : x = c
      · rw [if_pos hx]
        apply ih
        intro hh
        apply h
        rw [List.cons_prefix_cons]
        exact ⟨hx.symm, hh⟩
      · rw [if_neg hx]

theorem starLoop_here (k : Str → Nat → Option Caps) :
    ∀ (w : Str) (pos : Nat),
      (∀ w1 w2, w = w1 ++ w2 → w1 ≠ [] → k w2 (pos + w1.length) = none) →
      starLoop k w pos = k w pos := by
  intro w
  induction w with
  | nil => intro pos _; rfl
  | cons c s ih =>
    intro pos h
    rw [starLoop]
    by_cases hc : c = '\n'
    · rw [if_pos hc]
    · rw [if_neg hc]
      have h1 : starLoop k s (pos + 1) = k s (pos + 1) := by
        apply ih
        intro w1 w2 hs hw
        have := h (c :: w1) w2 (by rw [hs]; rfl) (by simp)
        simp only [List.length_cons] at this
        rw [← this]
        congr 1
        omega
      have h2 : k s (pos + 1) = none := h [c] s rfl (by simp)
      rw [h1, h2]

theorem starLoop_split (k : Str → Nat → Option Caps) (w : Str) (r : Caps) :
    ∀ (u : Str) (pos : Nat), '\n' ∉ u →
      (∀ w1 w2, w = w1 ++ w2 → w1 ≠ [] → k w2 (pos + u.length + w1.length) = none) →
      k w (pos + u.length) = some r →
      starLoop k (u ++ w) pos = some r := by
  intro u
  induction u with
  | nil =>
    intro pos _ h hk
    simp only [List.nil_append, List.length_nil, Nat.add_zero] at h hk ⊢
    rw [starLoop_here k w pos h, hk]
  | cons c u ih =>
    intro pos hn h hk
    have hc : c ≠ '\n' := by
      intro hh; apply hn; simp [hh]
    have hu : '\n' ∉ u := by
      intro hh; apply hn; simp [hh]
    simp only [List.cons_append, starLoop, if_neg hc, List.append_eq]
    have : starLoop k (u ++ w) (pos + 1) = some r := by
      apply ih (pos + 1) hu
      · intro w1 w2 hs hw
        have := h w1 w2 hs hw
        simp only [List.length_cons] at this
        rw [← this]
        congr 1
        omega
      · rw [← hk]
        simp only [List.length_cons]
        congr 1
        omega
    rw [this]

theorem starLoop_to_end (caps : Caps) :
    ∀ (s : Str) (pos : Nat), '\n' ∉ s →
      starLoop (fun _ pos1 => some ((1, pos1) :: caps)) s pos = some ((1, pos + s.length) :: caps) := by
  intro s
  induction s with
  | nil => intro pos _; rfl
  | cons c s ih =>
    intro pos hn
    have hc : c ≠ '\n' := by
      intro hh; apply hn; simp [hh]
    have hs : '\n' ∉ s := by
      intro hh; apply hn; simp [hh]
    simp only [starLoop, if_neg hc]
    rw [ih (pos + 1) hs]
    simp only [List.length_cons]
    congr 3
    omega

theorem searchFrom_zero (prog : List Inst) (s : Str) (caps : Caps)
    (h : matchHere prog s 0 [(0, 0)] = some caps) : searchFrom prog s 0 = some caps := by
  cases s with
  | nil => rw [searchFrom, h]
  | cons c s => rw [searchFrom, h]

theorem numSubexp_literals (lits : Str) (prog : List Inst) :
    numSubexp (lits.map Inst.char ++ prog) = numSubexp prog := by
  induction lits with
  | nil => rfl
  | cons c lits ih =>
    unfold numSubexp at ih ⊢
    simp only [List.map_cons, List.cons_append, List.filter_cons]
    simp

theorem matchHere_group (pfx delimiter u v : Str)
    (hnl : '\n' ∉ pfx ++ u ++ delimiter ++ v)
    (hlast : ∀ u' v', u ++ delimiter ++ v = u' ++ delimiter ++ v' → u'.length ≤ u.length) :
    matchHere (Inst.save 2 :: (pfx.map Inst.char ++
        (Inst.anyStar :: (delimiter.map Inst.char ++ [Inst.save 3, Inst.anyStar]))))
      (pfx ++ u ++ delimiter ++ v) 0 [(0, 0)] =
    some [(1, pfx.length + u.length + delimiter.length + v.length),
      (3, pfx.length + u.length + delimiter.length), (2, 0), (0, 0)] := by
  have hu : '\n' ∉ u := by intro hh; apply hnl; simp [hh]
  have hv : '\n' ∉ v := by intro hh; apply hnl; simp [hh]
  rw [matchHere]
  have e : pfx ++ u ++ delimiter ++ v = pfx ++ (u ++ (delimiter ++ v)) := by simp
  rw [e, matchHere_literals, matchHere]
  apply starLoop_split _ _ _ u _ hu
  · intro w1 w2 hs hw
    apply matchHere_literals_none
    rintro ⟨t, ht⟩
    have := hlast (u ++ w1) t (by
      rw [List.append_assoc, List.append_assoc, List.append_assoc, hs, ht])
    have hw1 : 0 < w1.length := List.length_pos.mpr hw
    rw [List.length_append] at this
    omega
  · beta_reduce
    rw [matchHere_literals, matchHere, matchHere]
    have : (fun (s1 : Str) (pos1 : Nat) =>
        matchHere [] s1 pos1 [(3, 0 + pfx.length + u.length + delimiter.length), (2, 0), (0, 0)]) =
        (fun (_ : Str) (pos1 : Nat) =>
          some ((1, pos1) :: [(3, 0 + pfx.length + u.length + delimiter.length), (2, 0), (0, 0)])) := by
      funext s1 pos1
      rw [matchHere]
    rw [this, starLoop_to_end _ v _ hv]
    simp

theorem labelOf_last (pfx delimiter u v : Str) (hd : delimiter ≠ [])
    (hp : ∀ c ∈ pfx, isMeta c = false) (hdm : ∀ c ∈ delimiter, isMeta c = false)
    (hnl : '\n' ∉ pfx ++ u ++ delimiter ++ v)
    (hlast : ∀ u' v', u ++ delimiter ++ v = u' ++ delimiter ++ v' → u'.length ≤ u.length) :
    labelOf delimiter (getRegexpForList delimiter pfx) (pfx ++ u ++ delimiter ++ v) =
      some (pfx ++ u ++ delimiter) := by
  rw [getRegexpForList_literal delimiter pfx hd hp hdm]
  unfold labelOf
  rw [if_pos hd]
  simp only
  unfold findStringSubmatch
  rw [searchFrom_zero _ _ _ (matchHere_group pfx delimiter u v hnl hlast)]
  simp only [Option.map_some']
  have hn : numSubexp (Inst.save 2 :: (pfx.map Inst.char ++
        (Inst.anyStar :: (delimiter.map Inst.char ++ [Inst.save 3, Inst.anyStar])))) = 1 := by
    have h1 : ∀ prog, numSubexp (Inst.save 2 :: prog) = numSubexp prog + 1 := by
      intro prog; simp [numSubexp, List.filter_cons]
    have h2 : ∀ prog, numSubexp (Inst.anyStar :: prog) = numSubexp prog := by
      intro prog; simp [numSubexp, List.filter_cons]
    rw [h1, numSubexp_literals, h2, numSubexp_literals]
    rfl
  rw [hn]
  have hr : List.range (1 + 1) = [0, 1] := by decide
  rw [hr]
  simp only [List.map_cons, List.map_nil, List.getD_cons_succ, List.getD_cons_zero]
  simp only [groupText, slotOf, List.find?]
  simp only [Nat.reduceMul, Nat.reduceAdd, Nat.reduceEqDiff, decide_False, decide_True,
    Option.map_some', List.drop_zero, Nat.sub_zero]
  have e : pfx ++ u ++ delimiter ++ v = (pfx ++ u ++ delimiter) ++ v := by simp
  rw [List.take_left' (by simp only [List.length_append])]

/-! ### Auxiliary facts -/

theorem filter_length_le_one_of_nodup {α β : Type} [DecidableEq β] (f : α → β) (b : β) :
    ∀ l : List α, (l.map f).Nodup → (l.filter (fun a => decide (f a = b))).length ≤ 1 := by
  intro l
  induction l with
  | nil => intro _; simp
  | cons a l ih =>
    intro h
    rw [List.map_cons, List.nodup_cons] at h
    by_cases hab : f a = b
    · have hnone : l.filter (fun a => decide (f a = b)) = [] := by
        rw [List.filter_eq_nil_iff]
        intro x hx hxb
        apply h.1
        rw [hab]
        exact List.mem_map.mpr ⟨x, hx, by simpa using hxb⟩
      simp [List.filter_cons, hab, hnone]
    · have := ih h.2
      simpa [List.filter_cons, hab] using this

theorem last_of_not_mem (c : Char) (u v : Str) (h : c ∉ v) :
    ∀ u' v', u ++ [c] ++ v = u' ++ [c] ++ v' → u'.length ≤ u.length := by
  intro u' v' e
  simp only [List.append_assoc, List.singleton_append] at e
  rcases List.append_eq_append_iff.mp e with ⟨a, ha, hb⟩ | ⟨a, ha, hb⟩
  · cases a with
    | nil => simp [ha]
    | cons x a =>
      exfalso
      apply h
      simp only [List.cons_append, List.cons.injEq] at hb
      rw [hb.2]
      simp
  · rw [ha]; simp

theorem first_of_not_mem (c : Char) (u v : Str) (h : c ∉ u) :
    ∀ u' v', u ++ [c] ++ v = u' ++ [c] ++ v' → u.length ≤ u'.length := by
  intro u' v' e
  simp only [List.append_assoc, List.singleton_append] at e
  rcases List.append_eq_append_iff.mp e with ⟨a, ha, hb⟩ | ⟨a, ha, hb⟩
  · rw [ha]; simp
  · cases a with
    | nil => simp [ha]
    | cons x a =>
      exfalso
      apply h
      simp only [List.cons_append, List.cons.injEq] at hb
      rw [ha, ← hb.1]
      simp

theorem osStat_filter_ne (fs : FS) (p : Path) :
    osStat (fs.filter (fun n => n.path != p)) p = none := by
  unfold osStat
  rw [List.find?_eq_none]
  intro n hn
  rw [List.mem_filter] at hn
  simpa using hn.2

theorem labelOf_nil_delimiter (re : Regexp) (name : Str) : labelOf [] re name = none := by
  simp [labelOf]

theorem shownKey_of_none (delimiter : Str) (re : Regexp) (name : Str)
    (h : labelOf delimiter re name = none) : shownKey delimiter re name = name := by
  unfold shownKey; rw [h]

theorem countP_le_one_of_nodup {α : Type} [DecidableEq α] (a : α) :
    ∀ l : List α, l.Nodup → l.countP (fun x => decide (x = a)) ≤ 1 := by
  intro l
  induction l with
  | nil => intro _; simp
  | cons b l ih =>
    intro h
    rw [List.nodup_cons] at h
    by_cases hb : b = a
    · have : l.countP (fun x => decide (x = a)) = 0 := by
        rw [List.countP_eq_zero]
        intro x hx hxa
        apply h.1
        rw [hb]
        have : x = a := by simpa using hxa
        rw [← this]; exact hx
      simp [List.countP_cons, hb, this]
    · have := ih h.2
      simpa [List.countP_cons, hb] using this

theorem countP_eq_one_of_mem {α : Type} [DecidableEq α] (a : α) (l : List α) (h : l.Nodup)
    (ha : a ∈ l) : l.countP (fun x => decide (x = a)) = 1 := by
  have h1 := countP_le_one_of_nodup a l h
  have h2 : 0 < l.countP (fun x => decide (x = a)) := by
    rw [List.countP_pos_iff]
    exact ⟨a, ha, by simp⟩
  omega

/-! ## The claims -/

/-- C1, as stated: the round trip `unescapeKey (escapeKey k) = k` does not hold for every
key; the key `%2f` is encoded to itself and decoded to `/`. -/
theorem escape_roundtrip_fails_on_token : ¬ ∀ k : Str, unescapeKey (escapeKey k) = k := by
  intro h
  exact absurd (h escapedSeparator) (by decide)

/-- C1, amended: for every key `k` that does not contain the escape token `%2f`,
`unescapeKey (escapeKey k) = k`. -/
theorem unescape_escape_roundtrip (k : Str) (h : ¬ escapedSeparator <:+: k) :
    unescapeKey (escapeKey k) = k :=
  unescape_escape_aux k h

/-- C1, witness: the key `a/b//c` holds no escape token and survives the round trip. -/
theorem unescape_escape_roundtrip_witness :
    ¬ escapedSeparator <:+: "a/b//c".toList ∧
      unescapeKey (escapeKey "a/b//c".toList) = "a/b//c".toList :=
  ⟨by decide, unescape_escape_roundtrip "a/b//c".toList (by decide)⟩

/-- C2: for a positive `max-keys` n and m entries of the marker-resolved snapshot whose
decoded name starts with the requested start: whenever `listObjects` answers, m > n gives
exactly the first n matching entries and `IsTruncated = true`, m < n gives all m matching
entries and `IsTruncated` unset; and it does answer when the bucket exists and the grouping
pattern is usable. -/
theorem truncation_at_max_keys (fs : FS) (root : Path) (r : Request) (hn : 0 < r.MaxKeys) :
    (∀ out, listObjects fs root r = .ok out →
      (r.MaxKeys < ((matching fs root r).length : Int) →
        out.Contents = ((matching fs root r).take r.MaxKeys.toNat).map
            (entryObject r.Delimiter (getRegexpForList r.Delimiter r.Prefix)) ∧
          (out.Contents.length : Int) = r.MaxKeys ∧ out.IsTruncated = some true) ∧
      (((matching fs root r).length : Int) < r.MaxKeys →
        out.Contents = (matching fs root r).map
            (entryObject r.Delimiter (getRegexpForList r.Delimiter r.Prefix)) ∧
          out.Contents.length = (matching fs root r).length ∧ out.IsTruncated = none)) ∧
    ((osStat fs (bucketPath root r)).isSome = true →
      patternOk r.Delimiter (getRegexpForList r.Delimiter r.Prefix) →
      ∃ out, listObjects fs root r = .ok out) := by
  refine ⟨?_, fun hb hre => listObjects_total fs root r hb (by omega) hre⟩
  intro out h
  obtain ⟨_, _, hc, ht, _⟩ := listObjects_ok fs root r out h
  have hb : budget r.MaxKeys 0 (matching fs root r) = r.MaxKeys.toNat := by
    unfold budget
    rw [if_neg (by omega)]
    simp
  rw [hb] at hc ht
  constructor
  · intro hlt
    have h1 : r.MaxKeys.toNat < (matching fs root r).length := by omega
    refine ⟨hc, ?_, ?_⟩
    · rw [hc, List.length_map, List.length_take]
      omega
    · rw [ht, if_pos h1]
  · intro hlt
    have h1 : (matching fs root r).length ≤ r.MaxKeys.toNat := by omega
    have h2 : ¬ r.MaxKeys.toNat < (matching fs root r).length := by omega
    rw [List.take_of_length_le h1] at hc
    refine ⟨hc, ?_, ?_⟩
    · rw [hc, List.length_map]
    · rw [ht, if_neg h2]

/-- C2, witness: scenario A with `max-keys=2`: three keys match, two are returned and the
listing is truncated. -/
theorem truncation_at_max_keys_witness :
    ∃ out, listObjects photosStore storeRoot
        { requestOn "photos.localhost" with MaxKeys := 2 } = .ok out ∧
      out.Contents.map Object.Key = ["a".toList, "b".toList] ∧ out.IsTruncated = some true :=
  have t := truncation_at_max_keys photosStore storeRoot
    { requestOn "photos.localhost" with MaxKeys := 2 } (by decide)
  (t.2 (by decide) (Or.inl rfl)).elim fun out h =>
    ⟨out, h, by rw [((t.1 out h).1 (by decide)).1]; decide, ((t.1 out h).1 (by decide)).2.2⟩

/-- C3, as stated: not every returned key starts with the requested start; in scenario B
the key `2024/01/a.log` is shown as `a.log`. -/
theorem shown_key_loses_start :
    ¬ ∀ (fs : FS) (root : Path) (r : Request) (out : ListObjectsOutput),
      listObjects fs root r = .ok out →
      ∀ o ∈ out.Contents, stringsHasPrefix o.Key r.Prefix = true := by
  intro h
  have := h logsStore storeRoot logsRequest logsListing (by decide)
    { Key := "a.log".toList, Size := 10, LastModified := 100, ETag := "100".toList } (by decide)
  revert this
  decide

/-- C3, amended: every returned key is the key shown for an entry of the marker-resolved
snapshot whose decoded name starts with the requested start; the key is that decoded name,
and starts with the requested start itself, when the entry has no label (no delimiter, or
no match of the grouping pattern), and it is the decoded name without the first occurrence
of the label otherwise.  `listObjects` answers when the bucket exists, `max-keys` is not
negative and the grouping pattern is usable. -/
theorem keys_come_from_matching_entries (fs : FS) (root : Path) (r : Request) :
    (∀ out, listObjects fs root r = .ok out → ∀ o ∈ out.Contents,
      ∃ d ∈ getDirFilesFromMarker fs (bucketPath root r) (some r.Marker),
        stringsHasPrefix (unescapeKey d.Name) r.Prefix = true ∧
        (∀ l, labelOf r.Delimiter (getRegexpForList r.Delimiter r.Prefix) (unescapeKey d.Name)
            = some l → o.Key = stringsReplace (unescapeKey d.Name) l [] 1) ∧
        (labelOf r.Delimiter (getRegexpForList r.Delimiter r.Prefix) (unescapeKey d.Name)
            = none → o.Key = unescapeKey d.Name ∧ stringsHasPrefix o.Key r.Prefix = true) ∧
        (r.Delimiter = [] → stringsHasPrefix o.Key r.Prefix = true)) ∧
    ((osStat fs (bucketPath root r)).isSome = true → 0 ≤ r.MaxKeys →
      patternOk r.Delimiter (getRegexpForList r.Delimiter r.Prefix) →
      ∃ out, listObjects fs root r = .ok out) := by
  refine ⟨?_, fun hb hk hre => listObjects_total fs root r hb hk hre⟩
  intro out h o ho
  obtain ⟨_, _, hc, _, _⟩ := listObjects_ok fs root r out h
  rw [hc, List.mem_map] at ho
  obtain ⟨d, hd, rfl⟩ := ho
  have hd' : d ∈ matching fs root r := List.mem_of_mem_take hd
  unfold matching at hd'
  rw [List.mem_filter] at hd'
  have hpass : stringsHasPrefix (unescapeKey d.Name) r.Prefix = true := hd'.2
  have hnone : labelOf r.Delimiter (getRegexpForList r.Delimiter r.Prefix) (unescapeKey d.Name)
      = none → (entryObject r.Delimiter (getRegexpForList r.Delimiter r.Prefix) d).Key
        = unescapeKey d.Name ∧
        stringsHasPrefix (entryObject r.Delimiter (getRegexpForList r.Delimiter r.Prefix) d).Key
          r.Prefix = true := by
    intro hl
    have : (entryObject r.Delimiter (getRegexpForList r.Delimiter r.Prefix) d).Key
        = unescapeKey d.Name := by
      simp only [entryObject, newObject]
      exact shownKey_of_none _ _ _ hl
    exact ⟨this, by rw [this]; exact hpass⟩
  refine ⟨d, hd'.1, hpass, ?_, hnone, ?_⟩
  · intro l hl
    simp only [entryObject, newObject, shownKey, hl]
  · intro hdel
    apply (hnone _).2
    rw [hdel]
    exact labelOf_nil_delimiter _ _

/-- C4: when the bucket exists and `k` is the decoded name of an entry of its snapshot, a
listing with marker `k` (no delimiter, a requested start that `k` starts with, `max-keys` not
negative) answers with non-empty `Contents` whose first key is `k`. -/
theorem marker_is_inclusive (fs : FS) (root : Path) (r : Request) (k : Str)
    (hb : (osStat fs (bucketPath root r)).isSome = true)
    (hk : ∃ d ∈ ioutilReadDir fs (bucketPath root r), unescapeKey d.Name = k)
    (hm : r.Marker = k) (hp : stringsHasPrefix k r.Prefix = true) (hd : r.Delimiter = [])
    (h0 : 0 ≤ r.MaxKeys) :
    ∃ out, listObjects fs root r = .ok out ∧
      ∃ o rest, out.Contents = o :: rest ∧ o.Key = k := by
  obtain ⟨out, h⟩ := listObjects_total fs root r hb h0 (Or.inl hd)
  refine ⟨out, h, ?_⟩
  obtain ⟨_, _, hc, _, _⟩ := listObjects_ok fs root r out h
  obtain ⟨j, d, rest, hj, hdrop, hdk⟩ := markerIndexLoop_some k (ioutilReadDir fs (bucketPath root r)) 0 0 hk
  have hfiles : getDirFilesFromMarker fs (bucketPath root r) (some r.Marker) = d :: rest := by
    unfold getDirFilesFromMarker
    simp only
    rw [hm, hj, Nat.zero_add, hdrop]
  have hpass : passes r.Prefix d = true := by
    unfold passes; rw [hdk]; exact hp
  have hmatch : matching fs root r = d :: rest.filter (passes r.Prefix) := by
    unfold matching
    rw [hfiles, List.filter_cons, if_pos hpass]
  have hbud : ∃ b, budget r.MaxKeys 0 (matching fs root r) = b + 1 := by
    unfold budget
    by_cases hz : r.MaxKeys = 0
    · rw [if_pos hz, hmatch]; exact ⟨_, rfl⟩
    · rw [if_neg hz]
      exact ⟨(r.MaxKeys - 0).toNat - 1, by omega⟩
  obtain ⟨b, hb'⟩ := hbud
  rw [hb', hmatch, List.take_succ_cons, List.map_cons] at hc
  refine ⟨_, _, hc, ?_⟩
  simp only [entryObject, newObject]
  rw [hd, shownKey_of_none _ _ _ (labelOf_nil_delimiter _ _), hdk]

/-- C4, witness: scenario A with marker `b`: the listing starts at `b` itself. -/
theorem marker_is_inclusive_witness :
    ∃ out, listObjects photosStore storeRoot
        { requestOn "photos.localhost" with Marker := "b".toList } = .ok out ∧
      ∃ o rest, out.Contents = o :: rest ∧ o.Key = "b".toList :=
  marker_is_inclusive photosStore storeRoot
    { requestOn "photos.localhost" with Marker := "b".toList } "b".toList (by decide)
    ⟨⟨"b".toList, 20, 200⟩, by decide, by decide⟩ rfl (by decide) rfl (by decide)

/-- C8: in a well-formed store whose bucket exists, `listObjects` with empty marker, empty
requested start, empty delimiter and `max-keys` 0 answers with one object an entry of the
snapshot, in snapshot order, whose keys are the decoded names; `IsTruncated` is unset and
there are no common prefixes. -/
theorem unparameterised_listing (fs : FS) (root : Path) (r : Request) (hwf : wellFormed fs)
    (hb : (osStat fs (bucketPath root r)).isSome = true)
    (hm : r.Marker = []) (hp : r.Prefix = []) (hd : r.Delimiter = []) (h0 : r.MaxKeys = 0) :
    ∃ out, listObjects fs root r = .ok out ∧
      out.Contents = (ioutilReadDir fs (bucketPath root r)).map
        (fun d => newObject (unescapeKey d.Name) d) ∧
      out.Contents.map Object.Key =
        (ioutilReadDir fs (bucketPath root r)).map (fun d => unescapeKey d.Name) ∧
      out.IsTruncated = none ∧ out.CommonPrefixes = [] := by
  obtain ⟨out, h⟩ := listObjects_total fs root r hb (by omega) (Or.inl hd)
  refine ⟨out, h, ?_⟩
  obtain ⟨_, _, hc, ht, hcp⟩ := listObjects_ok fs root r out h
  have hfiles : getDirFilesFromMarker fs (bucketPath root r) (some r.Marker) =
      ioutilReadDir fs (bucketPath root r) := by
    unfold getDirFilesFromMarker
    simp only
    rw [hm, markerIndexLoop_none [] _ 0 0, List.drop_zero]
    intro d hdm hnil
    exact (validName_of_mem_readDir fs _ hwf d hdm).1 (unescapeKey_eq_nil _ hnil)
  have hmatch : matching fs root r = ioutilReadDir fs (bucketPath root r) := by
    unfold matching
    rw [hfiles, hp]
    apply List.filter_eq_self.mpr
    intro d _
    simp [passes, stringsHasPrefix]
  have hbud : budget r.MaxKeys 0 (matching fs root r) = (matching fs root r).length := by
    unfold budget; rw [if_pos h0]
  rw [hbud, List.take_length] at hc
  have hobj : entryObject r.Delimiter (getRegexpForList r.Delimiter r.Prefix) =
      fun d => newObject (unescapeKey d.Name) d := by
    funext d
    simp only [entryObject]
    rw [hd, shownKey_of_none _ _ _ (labelOf_nil_delimiter _ _)]
  rw [hobj, hmatch] at hc
  refine ⟨hc, ?_, ?_, ?_⟩
  · rw [hc, List.map_map]
    rfl
  · rw [ht, hbud, if_neg (lt_irrefl _)]
  · rw [hcp, if_neg (by rw [hd]; simp)]

/-- C8, witness: scenario A: bucket `photos` with the keys `a`, `b`, `c` listed without
parameters. -/
theorem unparameterised_listing_witness :
    ∃ out, listObjects photosStore storeRoot (requestOn "photos.localhost") = .ok out ∧
      out.Contents.map Object.Key = ["a".toList, "b".toList, "c".toList] ∧
      out.IsTruncated = none ∧ out.CommonPrefixes = [] :=
  (unparameterised_listing photosStore storeRoot (requestOn "photos.localhost")
    (by unfold wellFormed validName; decide) (by decide) rfl rfl rfl rfl).elim
    fun out h => ⟨out, h.1, by rw [h.2.2.1]; decide, h.2.2.2⟩

/-- C5, as stated: the label is not the text up to the first delimiter behind the requested
start; for the name `a/b/c` and delimiter `/` the label is `a/b/`, not `a/`. -/
theorem label_is_not_up_to_first_delimiter :
    ¬ ∀ (pfx delimiter u v : Str), delimiter ≠ [] →
      (∀ u' v', u ++ delimiter ++ v = u' ++ delimiter ++ v' → u.length ≤ u'.length) →
      labelOf delimiter (getRegexpForList delimiter pfx) (pfx ++ u ++ delimiter ++ v) =
        some (pfx ++ u ++ delimiter) := by
  intro h
  have := h [] ['/'] ['a'] "b/c".toList (by decide)
    (first_of_not_mem '/' ['a'] "b/c".toList (by decide))
  revert this
  decide

/-- C5, amended: for a requested start and a non-empty delimiter without metacharacters and
a name without line feed that starts with the requested start and holds the delimiter behind
it, the label (group 1 of the pattern of `getRegexpForList`) is the name up to and including
the last occurrence of the delimiter behind the requested start. -/
theorem label_is_up_to_last_delimiter (pfx delimiter u v : Str) (hd : delimiter ≠ [])
    (hp : ∀ c ∈ pfx, isMeta c = false) (hdm : ∀ c ∈ delimiter, isMeta c = false)
    (hnl : '\n' ∉ pfx ++ u ++ delimiter ++ v)
    (hlast : ∀ u' v', u ++ delimiter ++ v = u' ++ delimiter ++ v' → u'.length ≤ u.length) :
    labelOf delimiter (getRegexpForList delimiter pfx) (pfx ++ u ++ delimiter ++ v) =
      some (pfx ++ u ++ delimiter) :=
  labelOf_last pfx delimiter u v hd hp hdm hnl hlast

/-- C5, witness: scenario B: with the requested start `2024/` and the delimiter `/` the names
`2024/01/a.log` and `2024/02/b.log` have the labels `2024/01/` and `2024/02/`. -/
theorem label_is_up_to_last_delimiter_witness :
    labelOf "/".toList (getRegexpForList "/".toList "2024/".toList) "2024/01/a.log".toList =
        some "2024/01/".toList ∧
      labelOf "/".toList (getRegexpForList "/".toList "2024/".toList) "2024/02/b.log".toList =
        some "2024/02/".toList :=
  ⟨label_is_up_to_last_delimiter "2024/".toList "/".toList "01".toList "a.log".toList
      (by decide) (by decide) (by decide) (by decide)
      (last_of_not_mem '/' "01".toList "a.log".toList (by decide)),
    label_is_up_to_last_delimiter "2024/".toList "/".toList "02".toList "b.log".toList
      (by decide) (by decide) (by decide) (by decide)
      (last_of_not_mem '/' "02".toList "b.log".toList (by decide))⟩

/-- C6, at the failing input: a bucket with the one file `a%2fb` (the key `a/b`).
`deleteObjects` reports the key `a/b` as deleted and the file is still in the bucket. -/
theorem deleteObjects_keeps_escaped_file :
    (deleteObjects nestedStore storeRoot (requestOn "logs.localhost")).2 =
        [{ DeleteMarker := some true, Key := some "a/b".toList }] ∧
      (deleteObjects nestedStore storeRoot (requestOn "logs.localhost")).1 = nestedStore ∧
      (ioutilReadDir (deleteObjects nestedStore storeRoot (requestOn "logs.localhost")).1
        (bucketPath storeRoot (requestOn "logs.localhost"))).map FileInfo.Name =
        ["a%2fb".toList] := by
  decide

/-- C7, as stated: `deleteObject` does not set `DeleteMarker` for every store and key; in
the store of scenario A the key `zzz` names no file and `DeleteMarker` stays unset. -/
theorem deleteObject_marker_not_always_set :
    ¬ ∀ (fs : FS) (root : Path) (r : Request),
      (deleteObject fs root r).2.DeleteMarker = some true := by
  intro h
  have := h photosStore storeRoot { requestOn "photos.localhost" with Key := "zzz".toList }
  revert this
  decide

/-- C7, amended: `deleteObject` sets `DeleteMarker = true` when the encoded path of the key
existed before the call; when it did not, `DeleteMarker` stays unset and the store is as it
was; in both cases the path is absent afterwards unless it is a directory with entries in
it, which `os.Remove` leaves in place. -/
theorem deleteObject_marker_iff_existed (fs : FS) (root : Path) (r : Request) :
    ((osStat fs (filepathJoin root [getBucket r, escapeKey r.Key])).isSome = true →
      (deleteObject fs root r).2.DeleteMarker = some true) ∧
    (osStat fs (filepathJoin root [getBucket r, escapeKey r.Key]) = none →
      (deleteObject fs root r).2.DeleteMarker = none ∧ (deleteObject fs root r).1 = fs) ∧
    (hasEntriesBelow fs (filepathJoin root [getBucket r, escapeKey r.Key]) = false →
      osStat (deleteObject fs root r).1 (filepathJoin root [getBucket r, escapeKey r.Key])
        = none) := by
  unfold deleteObject
  simp only
  cases hs : osStat fs (filepathJoin root [getBucket r, escapeKey r.Key]) with
  | none => simp [hs]
  | some n =>
    simp only [Option.isSome_some, if_true, true_implies, false_implies, true_and, reduceCtorEq]
    intro hb
    unfold osRemove
    rw [hb]
    simp only [Bool.false_eq_true, if_false]
    exact osStat_filter_ne fs _

/-- C7, witness: in the store of scenario A the key `a` names a file: it is removed and
`DeleteMarker` is set; the key `zzz` names none: `DeleteMarker` stays unset. -/
theorem deleteObject_marker_iff_existed_witness :
    (deleteObject photosStore storeRoot
        { requestOn "photos.localhost" with Key := "a".toList }).2.DeleteMarker = some true ∧
      osStat (deleteObject photosStore storeRoot
        { requestOn "photos.localhost" with Key := "a".toList }).1
        (filepathJoin storeRoot ["photos".toList, "a".toList]) = none ∧
      (deleteObject photosStore storeRoot
        { requestOn "photos.localhost" with Key := "zzz".toList }).2.DeleteMarker = none :=
  ⟨(deleteObject_marker_iff_existed photosStore storeRoot
      { requestOn "photos.localhost" with Key := "a".toList }).1 (by decide),
    (deleteObject_marker_iff_existed photosStore storeRoot
      { requestOn "photos.localhost" with Key := "a".toList }).2.2 (by decide),
    ((deleteObject_marker_iff_existed photosStore storeRoot
      { requestOn "photos.localhost" with Key := "zzz".toList }).2.1 (by decide)).1⟩

/-- C9, as stated: two entries with the same label do not always give that label once; in
the bucket `docs` listed with `max-keys=1` the scan stops before `c/1` and `c/2`, and their
label `c/` is not among the common prefixes. -/
theorem shared_label_may_be_absent :
    ¬ ∀ (fs : FS) (root : Path) (r : Request) (out : ListObjectsOutput), r.Delimiter ≠ [] →
      listObjects fs root r = .ok out →
      ∀ d1 ∈ ioutilReadDir fs (bucketPath root r), ∀ d2 ∈ ioutilReadDir fs (bucketPath root r),
        d1 ≠ d2 → ∀ s,
        labelOf r.Delimiter (getRegexpForList r.Delimiter r.Prefix) (unescapeKey d1.Name) = some s →
        labelOf r.Delimiter (getRegexpForList r.Delimiter r.Prefix) (unescapeKey d2.Name) = some s →
        out.CommonPrefixes.countP (fun l => decide (l = s)) = 1 := by
  intro h
  have := h docsStore storeRoot docsRequest docsListing (by decide) (by decide)
    ⟨"c%2f1".toList, 3, 300⟩ (by decide) ⟨"c%2f2".toList, 4, 400⟩ (by decide) (by decide)
    "c/".toList (by decide) (by decide)
  revert this
  decide

/-- C9, amended: the common prefixes `listObjects` returns hold no label twice; a label is
there exactly once when an entry with that label was scanned, that is, when the entry is
among the matching entries of the marker-resolved snapshot and not behind the one at which
the `max-keys` limit ends the scan. -/
theorem common_prefixes_nodup (fs : FS) (root : Path) (r : Request) :
    ∀ out, listObjects fs root r = .ok out →
      out.CommonPrefixes.Nodup ∧
      (∀ s, out.CommonPrefixes.countP (fun l => decide (l = s)) ≤ 1) ∧
      (∀ d ∈ (matching fs root r).take (budget r.MaxKeys 0 (matching fs root r) + 1), ∀ s,
        labelOf r.Delimiter (getRegexpForList r.Delimiter r.Prefix) (unescapeKey d.Name) = some s →
        out.CommonPrefixes.countP (fun l => decide (l = s)) = 1) := by
  intro out h
  obtain ⟨_, _, _, _, hcp⟩ := listObjects_ok fs root r out h
  have hnd : out.CommonPrefixes.Nodup := by
    rw [hcp]
    split
    · exact keys_foldl_nodup _ _ _ [] List.nodup_nil
    · exact List.nodup_nil
  refine ⟨hnd, fun s => countP_le_one_of_nodup s _ hnd, ?_⟩
  intro d hd s hl
  apply countP_eq_one_of_mem s _ hnd
  have hdel : r.Delimiter ≠ [] := by
    intro hh
    rw [hh, labelOf_nil_delimiter] at hl
    cases hl
  rw [hcp, if_pos hdel]
  exact keys_foldl_mem _ _ s _ [] d hd hl

/-- C9, witness: the bucket `docs` listed with delimiter `/` and no limit: `c/1` and `c/2`
share the label `c/`, which is returned once. -/
theorem common_prefixes_nodup_witness :
    listObjects docsStore storeRoot docsAllRequest = .ok docsAllListing ∧
      docsAllListing.CommonPrefixes.Nodup ∧
      docsAllListing.CommonPrefixes.countP (fun l => decide (l = "c/".toList)) = 1 :=
  have t := common_prefixes_nodup docsStore storeRoot docsAllRequest docsAllListing (by decide)
  ⟨by decide, t.1, t.2.2 ⟨"c%2f2".toList, 4, 400⟩ (by decide) "c/".toList (by decide)⟩

/-- C10: on names without `/`, encoding undoes decoding, so decoding is injective on them;
in a well-formed store no two entries of a directory snapshot decode to the same key, and at
most one entry decodes to a given marker. -/
theorem escape_unescape_on_names :
    (∀ n : Str, '/' ∉ n → escapeKey (unescapeKey n) = n) ∧
    (∀ n m : Str, '/' ∉ n → '/' ∉ m → unescapeKey n = unescapeKey m → n = m) ∧
    (∀ (fs : FS) (p : Path), wellFormed fs →
      ((ioutilReadDir fs p).map (fun d => unescapeKey d.Name)).Nodup) ∧
    (∀ (fs : FS) (p : Path) (marker : Str), wellFormed fs →
      ((ioutilReadDir fs p).filter (fun d => decide (unescapeKey d.Name = marker))).length ≤ 1) :=
  ⟨escape_unescape_of_no_sep, unescapeKey_injOn,
    fun fs p hwf => decoded_nodup_readDir fs p hwf,
    fun fs p marker hwf =>
      filter_length_le_one_of_nodup (fun d : FileInfo => unescapeKey d.Name) marker _
        (decoded_nodup_readDir fs p hwf)⟩

end LocalS3
